import Mathlib

/-! Verification of `within` (the select-backend within.c): a shallow
embedding of the line-prefixing pipers, the command-line parsing and the
select event loop, with theorems about their behaviour. -/

namespace Within

/-- Bytes of the separator written right after the directory name on each
output line: a colon and a space, from the format string of
run_piper. -/
def SEP : List Nat := [58, 32]

/-- Inner for-loop of run_piper: for each byte of the buffer, if the
newline flag is set, first write the directory name followed by ": ";
then write the byte; the flag becomes true iff the byte was a newline
(byte 10).  `acc` is the byte sequence already written to the output
FILE. -/
def run_piper_loop (pr : List Nat) : Bool → List Nat → List Nat → Bool × List Nat
  | nl, [], acc => (nl, acc)
  | nl, b :: bs, acc =>
    run_piper_loop pr (b == 10) bs (acc ++ (if nl then pr ++ SEP else []) ++ [b])

/-- Line-start flags seen by `run_piper_loop`: the flag in force when each
byte of the buffer is written (the first byte sees the incoming flag, each
later byte sees whether its predecessor was a newline). -/
def lineFlags (nl : Bool) : List Nat → List Bool
  | [] => []
  | b :: bs => nl :: lineFlags (b == 10) bs

/-- Value of the newline flag after a buffer has been processed. -/
def lastByteNl (nl : Bool) : List Nat → Bool
  | [] => nl
  | b :: bs => lastByteNl (b == 10) bs

/-! Command-line parsing (parse_options). -/

/-- One command-line argument, as the list of its characters. -/
abbrev Arg := List Char

/-- C `isspace` for the default locale. -/
def isSpaceC (c : Char) : Bool :=
  c = ' ' || c = '\t' || c = '\n' || c = '\r' || c = Char.ofNat 11 || c = Char.ofNat 12

/-- Leading run of decimal digits. -/
def takeDigits (cs : List Char) : List Char :=
  cs.takeWhile fun c => '0' ≤ c && c ≤ '9'

/-- Decimal value of a digit string. -/
def digitsToNat (cs : List Char) : Nat :=
  cs.foldl (fun a c => a * 10 + (c.toNat - 48)) 0

/-- The argument body examined for digits by strtol: what remains after
skipping leading whitespace and an optional sign. -/
def sgnBody (cs : List Char) : List Char :=
  match cs.dropWhile isSpaceC with
  | '-' :: r => r
  | '+' :: r => r
  | r => r

/-- True iff strtol saw a leading minus sign. -/
def sgnNeg (cs : List Char) : Bool :=
  match cs.dropWhile isSpaceC with
  | '-' :: _ => true
  | _ => false

/-- Mathematical value of the argument's numeric part: the sign applied
to the decimal value of the leading digit run (0 if there are no digits),
before any range handling. -/
def strtolRaw (cs : List Char) : Int :=
  if sgnNeg cs then - (digitsToNat (takeDigits (sgnBody cs)) : Int)
  else (digitsToNat (takeDigits (sgnBody cs)) : Int)

/-- Largest value of the 64-bit long the C code's strtol returns. -/
def LONG_MAX : Int := 9223372036854775807

/-- Smallest value of the 64-bit long the C code's strtol returns. -/
def LONG_MIN : Int := -9223372036854775808

/-- strtol(s, NULL, 10): skip whitespace, optional sign, then the value
of the leading digit run, with no check for trailing characters; a value
outside the long range is clamped to LONG_MAX or LONG_MIN (ERANGE). -/
def strtol10 (cs : List Char) : Int :=
  max LONG_MIN (min LONG_MAX (strtolRaw cs))

/-- The C cast (int) applied to a long: two's-complement truncation to 32
bits, as gcc and clang define it for out-of-range values. -/
def toCInt (x : Int) : Int := (x + 2147483648) % 4294967296 - 2147483648

/-- The value the program assigns to max_jobs for a -j argument:
(int)strtol(optarg, NULL, 10). -/
def jconv (cs : List Char) : Int := toCInt (strtol10 cs)

/-- Parsed command line: the -j limit, the directory list and the command
vector. -/
structure CmdLine where
  max_jobs : Int
  dirs : List Arg
  cmd : List Arg
deriving DecidableEq, Repr

/-- The getopt("j:") loop of parse_options, POSIX behaviour (no argument
permutation): consume leading option tokens; `-j` takes a value, either
attached or as the next argument, converts it with (int)strtol, and a
converted value below 1 is rejected at once (errx).  An unknown option or
a missing value exits with code 1.  A bare `--` ends option processing
and is consumed; a bare `-` or any token not starting with a dash ends
option processing and is kept. -/
def getopt_loop (j : Int) : List Arg → Except Nat (Int × List Arg)
  | [] => .ok (j, [])
  | a :: rest =>
    match a with
    | '-' :: c :: t =>
      if c = '-' && t.isEmpty then .ok (j, rest)
      else if c = 'j' then
        match t with
        | [] =>
          match rest with
          | [] => .error 1
          | v :: rest2 =>
            if jconv v < 1 then .error 1 else getopt_loop (jconv v) rest2
        | _ :: _ =>
          if jconv t < 1 then .error 1 else getopt_loop (jconv t) rest
      else .error 1
    | _ => .ok (j, a :: rest)

/-- True iff the argument is one of the separator tokens `-` or `--`. -/
def isSepArg (a : Arg) : Bool := a = ['-'] || a = ['-', '-']

/-- Index of the first separator token, if any. -/
def findSep : List Arg → Option Nat
  | [] => none
  | a :: r => if isSepArg a then some 0 else (findSep r).map (· + 1)

/-- Directory/command split of parse_options, applied to the arguments
left after getopt: fewer than two arguments is a usage error; the first
`-` or `--` splits the list, and a split with no directory before it or no
command word after it is a usage error; with no separator present, the
first argument is the one directory and the rest is the command. -/
def parse_positional (j : Int) (args : List Arg) : Except Nat CmdLine :=
  if args.length < 2 then .error 1
  else
    match findSep args with
    | some i =>
      if i < 1 ∨ i + 1 ≥ args.length then .error 1
      else .ok ⟨j, args.take i, args.drop (i + 1)⟩
    | none => .ok ⟨j, args.take 1, args.drop 1⟩

/-- parse_options: run the getopt loop starting from the default limit of
1, then split the remaining arguments.  The input list is argv without the
program name; an error value is the process exit code of the usage
error. -/
def parse_options (args : List Arg) : Except Nat CmdLine :=
  match getopt_loop 1 args with
  | .error c => .error c
  | .ok (j, rest) => parse_positional j rest

/-- An argument that the getopt loop does not treat as an option token: it
does not consist of a dash followed by at least one more character. -/
def notOptLike : Arg → Bool
  | '-' :: _ :: _ => false
  | _ => true

/-! The select event loop of main, with its pipers. -/

/-- One piper: the read end of one of a job's two pipes, feeding one of
the two output FILEs, tagged with the directory name used to build the
line markers.  `newline` is true iff the last character written was a
newline (or nothing was written yet). -/
structure Piper where
  in_fd : Nat
  errStream : Bool
  pr : List Nat
  newline : Bool
deriving DecidableEq, Repr

/-- Outcome of the sequence of read() calls one readiness notification
lets a piper make after its data chunks: end of stream (a zero-length
read), would-block (read fails with EAGAIN), or any other read
failure. -/
inductive ReadEnd
  | eof
  | eagain
  | rerr
deriving DecidableEq, Repr

/-- What one piper activation reads: the successive non-empty chunks read
returns, then how the final read ends. -/
structure PiperInput where
  chunks : List (List Nat)
  fin : ReadEnd
deriving DecidableEq, Repr

/-- The while-read loop of run_piper over the successive chunks. -/
def drain_chunks (pr : List Nat) : List (List Nat) → Bool → List Nat → Bool × List Nat
  | [], nl, acc => (nl, acc)
  | c :: cs, nl, acc =>
    let r := run_piper_loop pr nl c acc
    drain_chunks pr cs r.1 r.2

/-- One run_piper activation: write all readable chunks through the
line-marking loop, then act on the final read outcome.  End of stream
removes the piper (remove_piper frees it; note that remove_piper does not
close in_fd); EAGAIN keeps the piper for the next notification; any other
read error is err(1, "read"), aborting the whole process with exit code
1.  Returns the bytes written and the surviving piper, if any. -/
def run_piperA (p : Piper) (inp : PiperInput) : Except Nat (List Nat × Option Piper) :=
  let r := drain_chunks p.pr inp.chunks p.newline []
  match inp.fin with
  | .eof => .ok (r.2, none)
  | .eagain => .ok (r.2, some { p with newline := r.1 })
  | .rerr => .error 1

/-- Readiness reported by select, as an association from file descriptor
to what that descriptor yields when drained. -/
def lookupInput (ready : List (Nat × PiperInput)) (fd : Nat) : Option PiperInput :=
  match ready with
  | [] => none
  | (f, i) :: r => if f = fd then some i else lookupInput r fd

/-- The piper iteration of main after select returns: walk the piper list
(using the saved next pointer), and run every piper whose descriptor is
readable; a piper reaching end of stream drops out of the list.  Returns
the surviving list and the bytes written, or the exit code of a fatal
read error. -/
def drain_pipers (ready : List (Nat × PiperInput)) : List Piper → Except Nat (List Piper × List Nat)
  | [] => .ok ([], [])
  | p :: ps =>
    match lookupInput ready p.in_fd with
    | none => (drain_pipers ready ps).map fun r => (p :: r.1, r.2)
    | some inp =>
      match run_piperA p inp with
      | .error c => .error c
      | .ok (o, none) => (drain_pipers ready ps).map fun r => (r.1, o ++ r.2)
      | .ok (o, some p2) => (drain_pipers ready ps).map fun r => (p2 :: r.1, o ++ r.2)

/-- Scheduler state of main: the index of the next directory to start,
the number of running jobs, the live piper list, the aggregate status,
the bytes written to the combined output, the parent's open descriptors,
and (as bookkeeping) the wait statuses collected so far. -/
structure State where
  directory : Nat
  num_jobs : Nat
  pipers : List Piper
  status : Nat
  out : List Nat
  openFds : List Nat
  reaped : List Nat
deriving DecidableEq, Repr

/-- State before the loop starts. -/
def initState : State := ⟨0, 0, [], 0, [], [], []⟩

/-- close(fd) on the parent's descriptor table. -/
def closeFd (fds : List Nat) (fd : Nat) : List Nat := fds.erase fd

/-- A fresh piper as start_piper builds it: the newline flag starts
true. -/
def mkPiper (fd : Nat) (err : Bool) (pr : List Nat) : Piper := ⟨fd, err, pr, true⟩

/-- start_job for directory index `s.directory`: open the two pipes (the
job's four descriptors are numbered 4d..4d+3, read ends even), fork,
close the write ends in the parent, and push a piper for each read end
onto the list (stdout first, so the stderr piper ends up in front).  The
job and directory counters are stepped by the caller, as in main. -/
def start_job (dirs : List (List Nat)) (s : State) : State :=
  let d := s.directory
  let pr := dirs.getD d []
  let fds := closeFd (closeFd (s.openFds ++ [4 * d, 4 * d + 1, 4 * d + 2, 4 * d + 3]) (4 * d + 1)) (4 * d + 3)
  { s with
    openFds := fds
    pipers := mkPiper (4 * d + 2) true pr :: mkPiper (4 * d) false pr :: s.pipers }

/-- The job-starting inner loop of main: while fewer than max_jobs jobs
run and directories remain, start the next directory's job.  The fuel
only bounds the recursion; `dirs.length` is always enough. -/
def fill (M : Nat) (dirs : List (List Nat)) : Nat → State → State
  | 0, s => s
  | fuel + 1, s =>
    if s.num_jobs < M ∧ s.directory < dirs.length then
      fill M dirs fuel
        { start_job dirs s with num_jobs := s.num_jobs + 1, directory := s.directory + 1 }
    else s

/-- The waitpid(WNOHANG) loop of main: as long as jobs are running, reap
the next exited child if there is one; a nonzero wait status forces the
aggregate status to 1.  The argument lists the statuses of the children
that have exited and not yet been reaped, in reaping order. -/
def reap : List Nat → State → State
  | [], s => s
  | e :: es, s =>
    if s.num_jobs = 0 then s
    else
      reap es
        { s with
          num_jobs := s.num_jobs - 1
          status := if e ≠ 0 then 1 else s.status
          reaped := s.reaped ++ [e] }

/-- What the environment supplies to one iteration of the event loop:
which descriptors select reports readable (with their data), and which
children have exited.  A SIGCHLD-interrupted select is the case
`ready = []`. -/
structure Event where
  ready : List (Nat × PiperInput)
  exits : List Nat
deriving DecidableEq, Repr

/-- Guard of the event loop: jobs are running, or pipers are live, or
directories remain. -/
def loopCond (dirs : List (List Nat)) (s : State) : Bool :=
  (s.num_jobs != 0) || !s.pipers.isEmpty || decide (s.directory < dirs.length)

/-- Piper phase of one iteration: drain the readable pipers and append
what they wrote to the combined output, or fail with a fatal read
error. -/
def drainStep (ready : List (Nat × PiperInput)) (s : State) : Except Nat State :=
  match drain_pipers ready s.pipers with
  | .error c => .error c
  | .ok r => .ok { s with pipers := r.1, out := s.out ++ r.2 }

/-- One iteration of the loop body: start jobs up to the limit, drain the
readable pipers, then collect child exits.  A fatal error inside the
iteration carries the exit code err() uses. -/
def step (M : Nat) (dirs : List (List Nat)) (ev : Event) (s : State) : Except Nat State :=
  match drainStep ev.ready (fill M dirs dirs.length s) with
  | .error c => .error c
  | .ok s2 => .ok (reap ev.exits s2)

/-- Result of running the event loop: a fatal err() abort with its exit
code, normal loop exit with the final state, or the supply of modelled
events ran out while the guard still held. -/
inductive RunResult
  | fatal (code : Nat)
  | finished (s : State)
  | pending (s : State)
deriving DecidableEq, Repr

/-- The event loop of main, driven by a list of events. -/
def run (M : Nat) (dirs : List (List Nat)) : List Event → State → RunResult
  | [], s => if loopCond dirs s then .pending s else .finished s
  | e :: es, s =>
    if loopCond dirs s then
      match step M dirs e s with
      | .error c => .fatal c
      | .ok s2 => run M dirs es s2
    else .finished s

/-- Directory name as prefix bytes for the pipers. -/
def dirBytes (a : Arg) : List Nat := a.map Char.toNat

/-- Overall result of the program: a usage error during parsing (exit
before any job is started), a fatal err() abort during the loop, normal
completion with `return status`, or an unfinished modelled run. -/
inductive MainRes
  | parseError (code : Nat)
  | fatal (code : Nat)
  | done (code : Nat) (s : State)
  | pending (s : State)
deriving DecidableEq, Repr

/-- The whole program: parse the command line, then run the event loop on
the parsed directories with the parsed job limit; on normal completion
the exit code is the aggregate status. -/
def within_main (args : List Arg) (evs : List Event) : MainRes :=
  match parse_options args with
  | .error c => .parseError c
  | .ok o =>
    match run o.max_jobs.toNat (o.dirs.map dirBytes) evs initState with
    | .fatal c => .fatal c
    | .finished s => .done s.status s
    | .pending s => .pending s

/-- Bookkeeping invariant linking the aggregate status to the collected
wait statuses, and the job count to the directory counter. -/
def statusInv (s : State) : Prop :=
  (s.status = 0 ∨ s.status = 1)
    ∧ (s.status = 0 ↔ ∀ x ∈ s.reaped, x = 0)
    ∧ s.reaped.length + s.num_jobs = s.directory

/-- States the event loop can be in at the top of an iteration, for any
choice of environment events. -/
inductive Reach (M : Nat) (dirs : List (List Nat)) : State → Prop
  | init : Reach M dirs initState
  | next {s s2 : State} (e : Event) : Reach M dirs s → step M dirs e s = .ok s2 → Reach M dirs s2

/-! Properties of the line-marking loop. -/

theorem run_piper_loop_append (pr : List Nat) (b1 b2 : List Nat) :
    ∀ (nl : Bool) (acc : List Nat),
      run_piper_loop pr nl (b1 ++ b2) acc =
        run_piper_loop pr (run_piper_loop pr nl b1 acc).1 b2 (run_piper_loop pr nl b1 acc).2 := by
  induction b1 with
  | nil => intro nl acc; rfl
  | cons b bs ih =>
    intro nl acc
    simp only [List.cons_append, run_piper_loop, List.append_eq]
    exact ih (b == 10) ((acc ++ if nl = true then pr ++ SEP else []) ++ [b])

theorem run_piper_loop_out (pr : List Nat) (buf : List Nat) :
    ∀ (nl : Bool) (acc : List Nat),
      (run_piper_loop pr nl buf acc).2 =
        acc ++ ((buf.zip (lineFlags nl buf)).map
          fun q => (if q.2 then pr ++ SEP else []) ++ [q.1]).flatten := by
  induction buf with
  | nil => intro nl acc; simp [run_piper_loop, lineFlags]
  | cons b bs ih =>
    intro nl acc
    simp only [run_piper_loop, lineFlags, List.zip_cons_cons, List.map_cons, List.flatten_cons, ih]
    simp [List.append_assoc]

theorem run_piper_loop_flag (pr : List Nat) (buf : List Nat) :
    ∀ (nl : Bool) (acc : List Nat), (run_piper_loop pr nl buf acc).1 = lastByteNl nl buf := by
  induction buf with
  | nil => intro nl acc; rfl
  | cons b bs ih => intro nl acc; simp only [run_piper_loop, lastByteNl, ih]

theorem lastByteNl_concat (bs : List Nat) (b : Nat) :
    ∀ nl : Bool, lastByteNl nl (bs ++ [b]) = (b == 10) := by
  induction bs with
  | nil => intro nl; rfl
  | cons x xs ih =>
    intro nl
    simp only [List.cons_append, lastByteNl, List.append_eq]
    exact ih (x == 10)

/-- C4: the line-marking loop handles each byte in order: with the flag
set it writes the directory name and ": " before the byte; the output of
a whole buffer is exactly one such emission per byte, gated by the
line-start flag each byte sees; processing a concatenation equals
processing the parts in sequence, threading the flag, so a line marker is
never produced mid-line even across partial reads; after a non-empty
buffer the flag is set iff the last byte was a newline; and a fresh piper
starts with the flag set. -/
theorem c4 :
    (∀ (pr : List Nat) (nl : Bool) (acc : List Nat) (b : Nat),
      run_piper_loop pr nl [b] acc = ((b == 10), acc ++ (if nl then pr ++ SEP else []) ++ [b]))
    ∧ (∀ (pr : List Nat) (nl : Bool) (acc buf : List Nat),
      (run_piper_loop pr nl buf acc).2 =
        acc ++ ((buf.zip (lineFlags nl buf)).map
          fun q => (if q.2 then pr ++ SEP else []) ++ [q.1]).flatten)
    ∧ (∀ (pr : List Nat) (nl : Bool) (acc b1 b2 : List Nat),
      run_piper_loop pr nl (b1 ++ b2) acc =
        run_piper_loop pr (run_piper_loop pr nl b1 acc).1 b2 (run_piper_loop pr nl b1 acc).2)
    ∧ (∀ (pr : List Nat) (nl : Bool) (acc bs : List Nat) (b : Nat),
      (run_piper_loop pr nl (bs ++ [b]) acc).1 = (b == 10))
    ∧ (∀ (fd : Nat) (e : Bool) (pr : List Nat), (mkPiper fd e pr).newline = true) := by
  refine ⟨fun pr nl acc b => rfl, fun pr nl acc buf => run_piper_loop_out pr buf nl acc,
    fun pr nl acc b1 b2 => run_piper_loop_append pr b1 b2 nl acc, ?_, fun fd e pr => rfl⟩
  intro pr nl acc bs b
  rw [run_piper_loop_flag, lastByteNl_concat]

/-! Properties of a piper activation. -/

theorem run_piperA_error {p : Piper} {inp : PiperInput} {c : Nat}
    (h : run_piperA p inp = .error c) : c = 1 := by
  rcases inp with ⟨chunks, fin⟩
  cases fin <;> simp [run_piperA] at h
  omega

theorem drain_pipers_error (ready : List (Nat × PiperInput)) :
    ∀ (ps : List Piper) (c : Nat), drain_pipers ready ps = .error c → c = 1 := by
  intro ps
  induction ps with
  | nil => intro c h; simp [drain_pipers] at h
  | cons p ps ih =>
    intro c h
    simp only [drain_pipers] at h
    cases hl : lookupInput ready p.in_fd with
    | none =>
      simp only [hl] at h
      cases hd : drain_pipers ready ps with
      | error c2 => simp [hd, Except.map] at h; have := ih c2 hd; omega
      | ok r => simp [hd, Except.map] at h
    | some inp =>
      simp only [hl] at h
      cases hr : run_piperA p inp with
      | error c2 => simp [hr] at h; have := run_piperA_error hr; omega
      | ok r =>
        rcases r with ⟨o, keep⟩
        cases keep <;> simp only [hr] at h <;>
          · cases hd : drain_pipers ready ps with
            | error c2 => simp [hd, Except.map] at h; have := ih c2 hd; omega
            | ok r2 => simp [hd, Except.map] at h

theorem drain_pipers_nil (ps : List Piper) : drain_pipers [] ps = .ok (ps, []) := by
  induction ps with
  | nil => rfl
  | cons p ps ih => simp [drain_pipers, lookupInput, ih, Except.map]

/-- C6: a read that fails with EAGAIN is no error: the activation writes
nothing and the piper survives unchanged, waiting for the next readiness
notification; a read failing any other way makes the activation abort the
run with exit code 1, and so the whole piper-draining pass of the loop
aborts with exit code 1 whenever a readable piper's input ends in such a
failure. -/
theorem c6 :
    (∀ p : Piper, run_piperA p ⟨[], .eagain⟩ = .ok ([], some p))
    ∧ (∀ (p : Piper) (inp : PiperInput), inp.fin = .rerr → run_piperA p inp = .error 1)
    ∧ (∀ (ready : List (Nat × PiperInput)) (ps : List Piper) (p : Piper) (inp : PiperInput),
        p ∈ ps → lookupInput ready p.in_fd = some inp → inp.fin = .rerr →
        drain_pipers ready ps = .error 1) := by
  refine ⟨fun p => rfl, ?_, ?_⟩
  · intro p inp h
    rcases inp with ⟨chunks, fin⟩
    cases fin <;> simp_all [run_piperA]
  · intro ready ps
    induction ps with
    | nil => intro p inp h; simp at h
    | cons q ps ih =>
      intro p inp hmem hl hf
      simp only [drain_pipers]
      rcases List.mem_cons.mp hmem with hpq | hptail
      · subst hpq
        simp only [hl]
        have he : run_piperA p inp = .error 1 := by
          rcases inp with ⟨chunks, fin⟩
          cases fin <;> simp_all [run_piperA]
        simp [he]
      · cases hlq : lookupInput ready q.in_fd with
        | none => simp only [hlq]; rw [ih p inp hptail hl hf]; rfl
        | some inpq =>
          simp only [hlq]
          cases hr : run_piperA q inpq with
          | error c2 =>
            have hc2 : c2 = 1 := run_piperA_error hr
            simp [hr, hc2]
          | ok r =>
            rcases r with ⟨o, keep⟩
            cases keep <;> simp [hr, ih p inp hptail hl hf, Except.map]

/-! Properties of the scheduler phases. -/

theorem fill_statusInv (M : Nat) (dirs : List (List Nat)) :
    ∀ (fuel : Nat) (s : State), statusInv s → statusInv (fill M dirs fuel s) := by
  intro fuel
  induction fuel with
  | zero => intro s h; exact h
  | succ n ih =>
    intro s h
    unfold fill
    split
    · apply ih
      obtain ⟨h1, h2, h3⟩ := h
      exact ⟨h1, h2, by simp [start_job]; omega⟩
    · exact h

theorem fill_num_le (M : Nat) (dirs : List (List Nat)) :
    ∀ (fuel : Nat) (s : State), s.num_jobs ≤ M → (fill M dirs fuel s).num_jobs ≤ M := by
  intro fuel
  induction fuel with
  | zero => intro s h; exact h
  | succ n ih =>
    intro s h
    unfold fill
    split
    next hc => exact ih _ hc.1
    next hc => exact h

theorem fill_dir_mono (M : Nat) (dirs : List (List Nat)) :
    ∀ (fuel : Nat) (s : State), s.directory ≤ (fill M dirs fuel s).directory := by
  intro fuel
  induction fuel with
  | zero => intro s; exact le_refl _
  | succ n ih =>
    intro s
    unfold fill
    split
    next hc =>
      exact le_trans (Nat.le_succ _)
        (ih { start_job dirs s with num_jobs := s.num_jobs + 1, directory := s.directory + 1 })
    next hc => exact le_refl _

theorem fill_dir_le (M : Nat) (dirs : List (List Nat)) :
    ∀ (fuel : Nat) (s : State), s.directory ≤ dirs.length →
      (fill M dirs fuel s).directory ≤ dirs.length := by
  intro fuel
  induction fuel with
  | zero => intro s h; exact h
  | succ n ih =>
    intro s h
    unfold fill
    split
    next hc => exact ih _ hc.2
    next hc => exact h

theorem fill_progress (M : Nat) (dirs : List (List Nat)) :
    ∀ (fuel : Nat) (s : State), s.num_jobs = 0 → s.directory < dirs.length → 1 ≤ fuel →
      s.directory + 1 ≤ (fill M dirs fuel s).directory ∨ M = 0 := by
  intro fuel s h0 hd hf
  rcases Nat.eq_zero_or_pos M with hM | hM
  · exact Or.inr hM
  cases fuel with
  | zero => omega
  | succ n =>
    left
    unfold fill
    split
    next hc =>
      exact fill_dir_mono M dirs n
        { start_job dirs s with num_jobs := s.num_jobs + 1, directory := s.directory + 1 }
    next hc => exact absurd ⟨by omega, hd⟩ hc

theorem reap_statusInv : ∀ (es : List Nat) (s : State), statusInv s → statusInv (reap es s) := by
  intro es
  induction es with
  | nil => intro s h; exact h
  | cons e es ih =>
    intro s h
    unfold reap
    split
    next h0 => exact h
    next h0 =>
      apply ih
      obtain ⟨h1, h2, h3⟩ := h
      refine ⟨?_, ?_, ?_⟩
      · by_cases he : e = 0 <;> simp [he] <;> tauto
      · by_cases he : e = 0
        · simp [he, h2, or_imp, forall_and]
        · simp [he]
          exact ⟨e, Or.inr rfl, he⟩
      · simp; omega

theorem reap_num_le : ∀ (es : List Nat) (s : State), (reap es s).num_jobs ≤ s.num_jobs := by
  intro es
  induction es with
  | nil => intro s; exact le_refl _
  | cons e es ih =>
    intro s
    unfold reap
    split
    next => exact le_refl _
    next h0 => exact le_trans (ih _) (Nat.sub_le _ _)

theorem reap_zero : ∀ (es : List Nat) (s : State), s.num_jobs ≤ es.length →
    (reap es s).num_jobs = 0 := by
  intro es
  induction es with
  | nil => intro s h; exact Nat.le_zero.mp h
  | cons e es ih =>
    intro s h
    unfold reap
    split
    next h0 => exact h0
    next h0 =>
      apply ih
      simp at h ⊢
      omega

theorem reap_dir : ∀ (es : List Nat) (s : State), (reap es s).directory = s.directory := by
  intro es
  induction es with
  | nil => intro s; rfl
  | cons e es ih =>
    intro s
    unfold reap
    split
    next => rfl
    next h0 => rw [ih]

theorem drainStep_error {ready : List (Nat × PiperInput)} {s : State} {c : Nat}
    (h : drainStep ready s = .error c) : c = 1 := by
  unfold drainStep at h
  cases hd : drain_pipers ready s.pipers with
  | error c2 =>
    simp [hd] at h
    have := drain_pipers_error ready s.pipers c2 hd
    omega
  | ok r => simp [hd] at h

theorem drainStep_fields {ready : List (Nat × PiperInput)} {s s2 : State}
    (h : drainStep ready s = .ok s2) :
    s2.num_jobs = s.num_jobs ∧ s2.directory = s.directory ∧ s2.status = s.status
      ∧ s2.reaped = s.reaped ∧ s2.openFds = s.openFds := by
  unfold drainStep at h
  cases hd : drain_pipers ready s.pipers with
  | error c2 => simp [hd] at h
  | ok r =>
    simp [hd] at h
    rw [← h]
    simp

theorem drainStep_nil (s : State) : drainStep [] s = .ok s := by
  simp [drainStep, drain_pipers_nil]

theorem step_error {M : Nat} {dirs : List (List Nat)} {ev : Event} {s : State} {c : Nat}
    (h : step M dirs ev s = .error c) : c = 1 := by
  unfold step at h
  cases hd : drainStep ev.ready (fill M dirs dirs.length s) with
  | error c2 =>
    simp [hd] at h
    have := drainStep_error hd
    omega
  | ok s2 => simp [hd] at h

theorem step_statusInv {M : Nat} {dirs : List (List Nat)} {ev : Event} {s s2 : State}
    (hs : statusInv s) (h : step M dirs ev s = .ok s2) : statusInv s2 := by
  unfold step at h
  cases hd : drainStep ev.ready (fill M dirs dirs.length s) with
  | error c2 => simp [hd] at h
  | ok s1 =>
    simp [hd] at h
    rw [← h]
    apply reap_statusInv
    have h2 := fill_statusInv M dirs dirs.length s hs
    obtain ⟨e1, e2, e3, e4, _⟩ := drainStep_fields hd
    obtain ⟨a1, a2, a3⟩ := h2
    exact ⟨by rw [e3]; exact a1, by rw [e3, e4]; exact a2, by rw [e1, e2, e4]; exact a3⟩

theorem step_num_le {M : Nat} {dirs : List (List Nat)} {ev : Event} {s s2 : State}
    (hn : s.num_jobs ≤ M) (h : step M dirs ev s = .ok s2) : s2.num_jobs ≤ M := by
  unfold step at h
  cases hd : drainStep ev.ready (fill M dirs dirs.length s) with
  | error c2 => simp [hd] at h
  | ok s1 =>
    simp [hd] at h
    rw [← h]
    have h1 := fill_num_le M dirs dirs.length s hn
    obtain ⟨e1, _, _, _, _⟩ := drainStep_fields hd
    exact le_trans (reap_num_le ev.exits s1) (by omega)

/-! Properties of the event loop as a whole. -/

theorem run_fatal {M : Nat} {dirs : List (List Nat)} :
    ∀ (evs : List Event) (s0 : State) (c : Nat), run M dirs evs s0 = .fatal c → c = 1 := by
  intro evs
  induction evs with
  | nil =>
    intro s0 c h
    unfold run at h
    split at h <;> simp at h
  | cons e es ih =>
    intro s0 c h
    unfold run at h
    split at h
    · cases hs : step M dirs e s0 with
      | error c2 =>
        simp only [hs] at h
        simp at h
        have := step_error hs
        omega
      | ok s2 =>
        simp only [hs] at h
        exact ih s2 c h
    · simp at h

theorem run_cond {M : Nat} {dirs : List (List Nat)} :
    ∀ (evs : List Event) (s0 s : State),
      (run M dirs evs s0 = .finished s → loopCond dirs s = false)
      ∧ (run M dirs evs s0 = .pending s → loopCond dirs s = true) := by
  intro evs
  induction evs with
  | nil =>
    intro s0 s
    constructor
    · intro h
      unfold run at h
      split at h
      · simp at h
      · next hc => simp at h; rw [← h]; simpa using hc
    · intro h
      unfold run at h
      split at h
      · next hc => simp at h; rw [← h]; exact hc
      · simp at h
  | cons e es ih =>
    intro s0 s
    constructor
    · intro h
      unfold run at h
      split at h
      · cases hs : step M dirs e s0 with
        | error c2 => simp only [hs] at h; simp at h
        | ok s2 => simp only [hs] at h; exact (ih s2 s).1 h
      · next hc => simp at h; rw [← h]; simpa using hc
    · intro h
      unfold run at h
      split at h
      · cases hs : step M dirs e s0 with
        | error c2 => simp only [hs] at h; simp at h
        | ok s2 => simp only [hs] at h; exact (ih s2 s).2 h
      · simp at h

theorem run_inv (M : Nat) (dirs : List (List Nat)) (P : State → Prop)
    (hstep : ∀ (ev : Event) (s s2 : State), P s → step M dirs ev s = .ok s2 → P s2) :
    ∀ (evs : List Event) (s0 : State), P s0 → ∀ s : State,
      run M dirs evs s0 = .finished s ∨ run M dirs evs s0 = .pending s → P s := by
  intro evs
  induction evs with
  | nil =>
    intro s0 h0 s hs
    rcases hs with h | h <;> unfold run at h <;> split at h
    · simp at h
    · simp at h; exact h ▸ h0
    · simp at h; exact h ▸ h0
    · simp at h
  | cons e es ih =>
    intro s0 h0 s hs
    rcases hs with h | h
    · unfold run at h
      split at h
      · cases hs2 : step M dirs e s0 with
        | error c2 => simp only [hs2] at h; simp at h
        | ok s2 => simp only [hs2] at h; exact ih s2 (hstep e s0 s2 h0 hs2) s (Or.inl h)
      · simp at h; exact h ▸ h0
    · unfold run at h
      split at h
      · cases hs2 : step M dirs e s0 with
        | error c2 => simp only [hs2] at h; simp at h
        | ok s2 => simp only [hs2] at h; exact ih s2 (hstep e s0 s2 h0 hs2) s (Or.inr h)
      · simp at h

theorem loopCond_false_iff (dirs : List (List Nat)) (s : State) :
    loopCond dirs s = false ↔ s.num_jobs = 0 ∧ s.pipers = [] ∧ dirs.length ≤ s.directory := by
  simp [loopCond, List.isEmpty_iff, not_lt, and_assoc]

theorem loopCond_true_iff (dirs : List (List Nat)) (s : State) :
    loopCond dirs s = true ↔
      (s.num_jobs ≠ 0 ∨ s.pipers ≠ [] ∨ s.directory < dirs.length) := by
  simp [loopCond, List.isEmpty_iff]
  tauto

/-- C2: the event loop exits normally exactly when the directory queue is
exhausted, no job is running, and no piper is live; and a piper only ever
leaves the live set by reporting end of stream, so the loop cannot exit
while some piper's source still has data coming. -/
theorem c2 (M : Nat) (dirs : List (List Nat)) (evs : List Event) (s0 : State) :
    (∀ s : State, run M dirs evs s0 = .finished s →
        s.num_jobs = 0 ∧ s.pipers = [] ∧ dirs.length ≤ s.directory)
    ∧ (∀ s : State, run M dirs evs s0 = .pending s →
        (s.num_jobs ≠ 0 ∨ s.pipers ≠ [] ∨ s.directory < dirs.length))
    ∧ (∀ (p : Piper) (inp : PiperInput) (o : List Nat),
        run_piperA p inp = .ok (o, none) → inp.fin = .eof) := by
  refine ⟨?_, ?_, ?_⟩
  · intro s h
    exact (loopCond_false_iff dirs s).mp ((run_cond evs s0 s).1 h)
  · intro s h
    exact (loopCond_true_iff dirs s).mp ((run_cond evs s0 s).2 h)
  · intro p inp o h
    rcases inp with ⟨chunks, fin⟩
    cases fin with
    | eof => rfl
    | eagain => simp [run_piperA] at h
    | rerr => simp [run_piperA] at h

theorem c2_witness :
    (⟨1, 0, [], 0, [100, 58, 32, 104, 105, 10], [0, 2], [0]⟩ : State).num_jobs = 0
    ∧ (⟨1, 0, [], 0, [100, 58, 32, 104, 105, 10], [0, 2], [0]⟩ : State).pipers = []
    ∧ [[100]].length ≤ (⟨1, 0, [], 0, [100, 58, 32, 104, 105, 10], [0, 2], [0]⟩ : State).directory :=
  (c2 1 [[100]] [⟨[(0, ⟨[[104, 105, 10]], .eof⟩), (2, ⟨[], .eof⟩)], [0]⟩] initState).1
    ⟨1, 0, [], 0, [100, 58, 32, 104, 105, 10], [0, 2], [0]⟩ (by decide)

/-! Exit codes of the usage-error paths. -/

theorem getopt_loop_error_aux : ∀ (n : Nat) (args : List Arg), args.length ≤ n →
    ∀ (j : Int) (c : Nat), getopt_loop j args = .error c → c = 1 := by
  intro n
  induction n with
  | zero =>
    intro args hl j c h
    have : args = [] := List.length_eq_zero.mp (Nat.le_zero.mp hl)
    subst this
    simp [getopt_loop] at h
  | succ n ih =>
    intro args hl j c h
    cases args with
    | nil => simp [getopt_loop] at h
    | cons a rest =>
      unfold getopt_loop at h
      split at h
      · split at h
        · simp at h
        · split at h
          · split at h
            · split at h
              · simp at h; omega
              · split at h
                · simp at h; omega
                · next v rest2 heq =>
                    refine ih rest2 ?_ _ _ h
                    simp at hl
                    omega
            · split at h
              · simp at h; omega
              · refine ih rest ?_ _ _ h
                simp at hl
                omega
          · simp at h; omega
      · simp at h

theorem getopt_loop_error {args : List Arg} {j : Int} {c : Nat}
    (h : getopt_loop j args = .error c) : c = 1 :=
  getopt_loop_error_aux args.length args (le_refl _) j c h

theorem parse_positional_error {j : Int} {args : List Arg} {c : Nat}
    (h : parse_positional j args = .error c) : c = 1 := by
  unfold parse_positional at h
  split at h
  · simp at h; omega
  · split at h
    · split at h
      · simp at h; omega
      · simp at h
    · simp at h

theorem parse_options_error {args : List Arg} {c : Nat} (h : parse_options args = .error c) :
    c = 1 := by
  unfold parse_options at h
  cases hg : getopt_loop 1 args with
  | error c2 =>
    simp only [hg] at h
    simp at h
    have := getopt_loop_error hg
    omega
  | ok r =>
    rcases r with ⟨j, rest⟩
    simp only [hg] at h
    exact parse_positional_error h

theorem statusInv_init : statusInv initState := by
  refine ⟨Or.inl rfl, by simp [initState, statusInv], rfl⟩

/-- C1: every exit path of the program yields code 0 or 1; a usage error
or a fatal system failure exits with 1; and on normal completion the code
is 0 exactly when every wait status collected for the started jobs was 0,
the collected statuses covering all started jobs one for one. -/
theorem c1 (args : List Arg) (evs : List Event) :
    (∀ c : Nat, within_main args evs = .parseError c → c = 1)
    ∧ (∀ c : Nat, within_main args evs = .fatal c → c = 1)
    ∧ (∀ (c : Nat) (s : State), within_main args evs = .done c s →
        (c = 0 ∨ c = 1) ∧ (c = 0 ↔ ∀ x ∈ s.reaped, x = 0) ∧ s.reaped.length = s.directory) := by
  refine ⟨?_, ?_, ?_⟩
  · intro c h
    unfold within_main at h
    cases hp : parse_options args with
    | error c2 =>
      simp only [hp] at h
      simp at h
      have := parse_options_error hp
      omega
    | ok o =>
      simp only [hp] at h
      cases hr : run o.max_jobs.toNat (o.dirs.map dirBytes) evs initState with
      | fatal c2 => simp [hr] at h
      | finished s2 => simp [hr] at h
      | pending s2 => simp [hr] at h
  · intro c h
    unfold within_main at h
    cases hp : parse_options args with
    | error c2 => simp [hp] at h
    | ok o =>
      simp only [hp] at h
      cases hr : run o.max_jobs.toNat (o.dirs.map dirBytes) evs initState with
      | fatal c2 =>
        simp [hr] at h
        have := run_fatal evs initState c2 hr
        omega
      | finished s2 => simp [hr] at h
      | pending s2 => simp [hr] at h
  · intro c s h
    unfold within_main at h
    cases hp : parse_options args with
    | error c2 => simp [hp] at h
    | ok o =>
      simp only [hp] at h
      cases hr : run o.max_jobs.toNat (o.dirs.map dirBytes) evs initState with
      | fatal c2 => simp [hr] at h
      | pending s2 => simp [hr] at h
      | finished s2 =>
        simp [hr] at h
        obtain ⟨hc, hs⟩ := h
        subst hs
        subst hc
        have hinv : statusInv s2 :=
          run_inv o.max_jobs.toNat (o.dirs.map dirBytes) statusInv
            (fun ev a b ha hb => step_statusInv ha hb) evs initState statusInv_init s2
            (Or.inl hr)
        obtain ⟨a1, a2, a3⟩ := hinv
        have hz :=
          (loopCond_false_iff (o.dirs.map dirBytes) s2).mp ((run_cond evs initState s2).1 hr)
        exact ⟨a1, a2, by omega⟩

theorem c1_witness :
    ((0 : Nat) = 0 ∨ (0 : Nat) = 1)
    ∧ ((0 : Nat) = 0 ↔
        ∀ x ∈ (⟨1, 0, [], 0, [100, 58, 32, 104, 105, 10], [0, 2], [0]⟩ : State).reaped, x = 0)
    ∧ (⟨1, 0, [], 0, [100, 58, 32, 104, 105, 10], [0, 2], [0]⟩ : State).reaped.length
        = (⟨1, 0, [], 0, [100, 58, 32, 104, 105, 10], [0, 2], [0]⟩ : State).directory :=
  (c1 [['d'], ['-'], ['x']] [⟨[(0, ⟨[[104, 105, 10]], .eof⟩), (2, ⟨[], .eof⟩)], [0]⟩]).2.2 0
    ⟨1, 0, [], 0, [100, 58, 32, 104, 105, 10], [0, 2], [0]⟩ (by decide)

theorem c6_witness :
    run_piperA ⟨0, false, [], true⟩ ⟨[], .eagain⟩ = .ok ([], some ⟨0, false, [], true⟩)
    ∧ drain_pipers [(0, ⟨[], .rerr⟩)] [⟨0, false, [], true⟩] = .error 1 :=
  ⟨c6.1 ⟨0, false, [], true⟩,
   c6.2.2 [(0, ⟨[], .rerr⟩)] [⟨0, false, [], true⟩] ⟨0, false, [], true⟩ ⟨[], .rerr⟩
     (by simp) (by rfl) rfl⟩

/-! Bounded concurrency and progress. -/

theorem run_fair (M : Nat) (dirs : List (List Nat)) (hM : 1 ≤ M) :
    ∀ evs : List Event, (∀ e ∈ evs, e.ready = [] ∧ M ≤ e.exits.length) →
    ∀ s0 : State, s0.num_jobs = 0 → s0.directory ≤ dirs.length →
    ∃ s : State, (run M dirs evs s0 = .finished s ∨ run M dirs evs s0 = .pending s)
      ∧ s.num_jobs = 0 ∧ s.directory ≤ dirs.length
      ∧ min dirs.length (s0.directory + evs.length) ≤ s.directory := by
  intro evs
  induction evs with
  | nil =>
    intro _ s0 h0 hd
    refine ⟨s0, ?_, h0, hd, by simp⟩
    unfold run
    split
    · exact Or.inr rfl
    · exact Or.inl rfl
  | cons e es ih =>
    intro hf s0 h0 hd
    have hfe := hf e (by simp)
    have hfes : ∀ e2 ∈ es, e2.ready = [] ∧ M ≤ e2.exits.length :=
      fun e2 he2 => hf e2 (by simp [he2])
    by_cases hc : loopCond dirs s0 = true
    · have hstep : step M dirs e s0 = .ok (reap e.exits (fill M dirs dirs.length s0)) := by
        unfold step
        rw [hfe.1, drainStep_nil]
      have h1n : (fill M dirs dirs.length s0).num_jobs ≤ M :=
        fill_num_le M dirs dirs.length s0 (by omega)
      have h2n : (reap e.exits (fill M dirs dirs.length s0)).num_jobs = 0 :=
        reap_zero e.exits _ (le_trans h1n hfe.2)
      have h2d : (reap e.exits (fill M dirs dirs.length s0)).directory
          = (fill M dirs dirs.length s0).directory := reap_dir e.exits _
      have h1dle : (fill M dirs dirs.length s0).directory ≤ dirs.length :=
        fill_dir_le M dirs dirs.length s0 hd
      obtain ⟨s, hrun, hn, hdle, hmin⟩ :=
        ih hfes (reap e.exits (fill M dirs dirs.length s0)) h2n (by rw [h2d]; exact h1dle)
      refine ⟨s, ?_, hn, hdle, ?_⟩
      · unfold run
        rw [if_pos hc, hstep]
        exact hrun
      · rcases Nat.lt_or_ge s0.directory dirs.length with hlt | hge
        · have hpr : s0.directory + 1 ≤ (fill M dirs dirs.length s0).directory := by
            rcases fill_progress M dirs dirs.length s0 h0 hlt (by omega) with hx | hx
            · exact hx
            · omega
          simp only [List.length_cons]
          omega
        · have hfix : (fill M dirs dirs.length s0).directory = s0.directory := by
            have hmono := fill_dir_mono M dirs dirs.length s0
            omega
          simp only [List.length_cons]
          omega
    · have hcf : loopCond dirs s0 = false := by
        cases hb : loopCond dirs s0
        · rfl
        · exact absurd hb hc
      obtain ⟨hz1, hz2, hz3⟩ := (loopCond_false_iff dirs s0).mp hcf
      refine ⟨s0, Or.inl ?_, h0, hd, by omega⟩
      unfold run
      rw [if_neg hc]

/-- C3: for every limit M of at least 1, the number of running jobs never
exceeds M — not in any reachable loop state, and not at any point inside
the job-starting inner loop — and when the environment keeps reaping the
finished jobs, after as many loop iterations as there are directories
every directory's job has been started. -/
theorem c3 (M : Nat) (dirs : List (List Nat)) (hM : 1 ≤ M) :
    (∀ s : State, Reach M dirs s → s.num_jobs ≤ M)
    ∧ (∀ (fuel : Nat) (s : State), s.num_jobs ≤ M → (fill M dirs fuel s).num_jobs ≤ M)
    ∧ (∀ evs : List Event, (∀ e ∈ evs, e.ready = [] ∧ M ≤ e.exits.length) →
        dirs.length ≤ evs.length →
        ∃ s : State,
          (run M dirs evs initState = .finished s ∨ run M dirs evs initState = .pending s)
          ∧ s.directory = dirs.length) := by
  refine ⟨?_, fill_num_le M dirs, ?_⟩
  · intro s h
    induction h with
    | init => exact Nat.zero_le M
    | next e hr hstep ih => exact step_num_le ih hstep
  · intro evs hf hlen
    obtain ⟨s, hrun, hn, hdle, hmin⟩ :=
      run_fair M dirs hM evs hf initState rfl (Nat.zero_le _)
    refine ⟨s, hrun, ?_⟩
    simp [initState] at hmin
    omega

theorem c3_witness :
    initState.num_jobs ≤ 1 ∧ (fill 1 [[100]] 1 initState).num_jobs ≤ 1 :=
  ⟨(c3 1 [[100]] (by decide)).1 initState Reach.init,
   (c3 1 [[100]] (by decide)).2.1 1 initState (by decide)⟩

/-- C5: evidence for the end-of-stream handling of the select backend: in
a complete run in which both pipers of the single job report end of
stream, both pipers are removed from the live list (and so from the wait
set select is built from) and freed, yet both read-end descriptors 0 and
2 are still among the parent's open descriptors afterwards, because
remove_piper never calls close on in_fd. -/
theorem c5 :
    within_main [['d'], ['-'], ['x']]
        [⟨[(0, ⟨[[104, 105, 10]], .eof⟩), (2, ⟨[], .eof⟩)], [0]⟩]
      = .done 0 ⟨1, 0, [], 0, [100, 58, 32, 104, 105, 10], [0, 2], [0]⟩
    ∧ (⟨1, 0, [], 0, [100, 58, 32, 104, 105, 10], [0, 2], [0]⟩ : State).pipers = []
    ∧ 0 ∈ (⟨1, 0, [], 0, [100, 58, 32, 104, 105, 10], [0, 2], [0]⟩ : State).openFds
    ∧ 2 ∈ (⟨1, 0, [], 0, [100, 58, 32, 104, 105, 10], [0, 2], [0]⟩ : State).openFds := by
  decide

/-! The argument split. -/

theorem getopt_stop {a : Arg} (h : notOptLike a = true) (j : Int) (rest : List Arg) :
    getopt_loop j (a :: rest) = .ok (j, a :: rest) := by
  unfold getopt_loop
  split
  · simp_all [notOptLike]
  · rfl

theorem findSep_none : ∀ args : List Arg, (∀ a ∈ args, isSepArg a = false) →
    findSep args = none := by
  intro args
  induction args with
  | nil => intro h; rfl
  | cons a r ih =>
    intro h
    simp only [findSep]
    rw [h a (by simp)]
    simp [ih fun x hx => h x (by simp [hx])]

theorem findSep_split {s : Arg} (post : List Arg) (hs : isSepArg s = true) :
    ∀ pre : List Arg, (∀ a ∈ pre, isSepArg a = false) →
      findSep (pre ++ s :: post) = some pre.length := by
  intro pre
  induction pre with
  | nil => intro _; simp [findSep, hs]
  | cons a r ih =>
    intro hpre
    simp only [List.cons_append, findSep]
    rw [hpre a (by simp)]
    simp [ih fun x hx => hpre x (by simp [hx])]

/-- Shared: a -j value whose int-converted numeric value is below 1
makes the program exit with a usage error before anything is started. -/
theorem jbad_parseError (v : Arg) (rest : List Arg) (evs : List Event)
    (h : jconv v < 1) : within_main (['-', 'j'] :: v :: rest) evs = .parseError 1 := by
  have hg : getopt_loop 1 (['-', 'j'] :: v :: rest) = .error 1 := by
    unfold getopt_loop
    simp [h]
  unfold within_main parse_options
  rw [hg]

/-- C7: an invalid -j limit (the int-converted strtol value that becomes
max_jobs is below 1), fewer than two remaining arguments, a separator
first among the remaining arguments, or the delimiting separator in last
position each make the program exit with code 1 from option parsing,
before the event loop (and hence any job) starts. -/
theorem c7 :
    (∀ (v : Arg) (rest : List Arg) (evs : List Event), jconv v < 1 →
        within_main (['-', 'j'] :: v :: rest) evs = .parseError 1)
    ∧ (∀ evs : List Event, within_main [] evs = .parseError 1)
    ∧ (∀ (d : Arg) (evs : List Event), notOptLike d = true →
        within_main [d] evs = .parseError 1)
    ∧ (∀ (j : Int) (s : Arg) (rest : List Arg), isSepArg s = true →
        parse_positional j (s :: rest) = .error 1)
    ∧ (∀ (j : Int) (pre : List Arg) (s : Arg), isSepArg s = true →
        (∀ a ∈ pre, isSepArg a = false) → parse_positional j (pre ++ [s]) = .error 1)
    ∧ (∀ (args : List Arg) (evs : List Event) (j : Int) (rest : List Arg),
        getopt_loop 1 args = .ok (j, rest) → parse_positional j rest = .error 1 →
        within_main args evs = .parseError 1) := by
  refine ⟨jbad_parseError, fun evs => rfl, ?_, ?_, ?_, ?_⟩
  · intro d evs h
    unfold within_main parse_options
    rw [getopt_stop h]
    rfl
  · intro j s rest hs
    have h0 : findSep (s :: rest) = some 0 := by simp [findSep, hs]
    unfold parse_positional
    split
    · rfl
    · simp only [h0]
      rw [if_pos (Or.inl (by omega))]
  · intro j pre s hs hpre
    have hfind : findSep (pre ++ [s]) = some pre.length := findSep_split [] hs pre hpre
    unfold parse_positional
    split
    · rfl
    · simp only [hfind]
      rw [if_pos (Or.inr (by simp))]
  · intro args evs j rest hg hp
    unfold within_main parse_options
    simp only [hg, hp]

theorem c7_witness :
    within_main [['-', 'j'], ['x'], ['d'], ['c']] [] = .parseError 1
    ∧ within_main [['d']] [] = .parseError 1
    ∧ parse_positional 1 [['-'], ['d'], ['c']] = .error 1
    ∧ parse_positional 1 [['d'], ['-', '-']] = .error 1
    ∧ within_main [['a'], ['-']] [] = .parseError 1 :=
  ⟨c7.1 ['x'] [['d'], ['c']] [] (by decide),
   c7.2.2.1 ['d'] [] rfl,
   c7.2.2.2.1 1 ['-'] [['d'], ['c']] rfl,
   c7.2.2.2.2.1 1 [['d']] ['-', '-'] rfl (by decide),
   c7.2.2.2.2.2 [['a'], ['-']] [] 1 [['a'], ['-']] rfl rfl⟩

/-- C8: with at least two remaining arguments and no separator token
among them, the first is the single directory and all the others form the
command, so one job runs without an explicit separator. -/
theorem c8 (d : Arg) (rest : List Arg) (hd : notOptLike d = true)
    (hds : isSepArg d = false) (hrest : ∀ a ∈ rest, isSepArg a = false) (hn : rest ≠ []) :
    parse_options (d :: rest) = .ok ⟨1, [d], rest⟩
    ∧ parse_positional 1 (d :: rest) = .ok ⟨1, [d], rest⟩ := by
  have hsep : findSep (d :: rest) = none := by
    apply findSep_none
    intro a ha
    rcases List.mem_cons.mp ha with h | h
    · exact h ▸ hds
    · exact hrest a h
  have hlr := List.length_pos.mpr hn
  have hpos : parse_positional 1 (d :: rest) = .ok ⟨1, [d], rest⟩ := by
    unfold parse_positional
    rw [if_neg (by simp; omega), hsep]
    simp
  refine ⟨?_, hpos⟩
  unfold parse_options
  rw [getopt_stop hd]
  exact hpos

theorem c8_witness :
    parse_options [['d'], ['p', 'w', 'd']] = .ok ⟨1, [['d']], [['p', 'w', 'd']]⟩ :=
  (c8 ['d'] [['p', 'w', 'd']] rfl rfl (by decide) (by decide)).1

/-- C9: the first separator token among the remaining arguments splits
them: everything before it is the directory list, everything after it —
including any further separator tokens — is passed through unchanged as
the command. -/
theorem c9 (j : Int) (d : Arg) (pre post : List Arg) (s : Arg)
    (hs : isSepArg s = true) (hd : isSepArg d = false)
    (hpre : ∀ a ∈ pre, isSepArg a = false) (hpost : post ≠ [])
    (hdo : notOptLike d = true) :
    parse_positional j ((d :: pre) ++ s :: post) = .ok ⟨j, d :: pre, post⟩
    ∧ parse_options ((d :: pre) ++ s :: post) = .ok ⟨1, d :: pre, post⟩ := by
  have hprefull : ∀ a ∈ d :: pre, isSepArg a = false := by
    intro a ha
    rcases List.mem_cons.mp ha with h | h
    · exact h ▸ hd
    · exact hpre a h
  have hfind : findSep ((d :: pre) ++ s :: post) = some (d :: pre).length :=
    findSep_split post hs (d :: pre) hprefull
  have hpl := List.length_pos.mpr hpost
  have htake : ((d :: pre) ++ s :: post).take (d :: pre).length = d :: pre :=
    List.take_left _ _
  have hdrop : ((d :: pre) ++ s :: post).drop ((d :: pre).length + 1) = post := by
    have heq : (d :: pre) ++ s :: post = ((d :: pre) ++ [s]) ++ post := by simp
    have hl2 : ((d :: pre) ++ [s]).length = (d :: pre).length + 1 := by simp
    rw [heq, ← hl2, List.drop_left]
  have hpos : ∀ j2 : Int,
      parse_positional j2 ((d :: pre) ++ s :: post) = .ok ⟨j2, d :: pre, post⟩ := by
    intro j2
    unfold parse_positional
    simp only [hfind]
    rw [if_neg (by simp only [List.length_append, List.length_cons]; omega),
      if_neg (by simp only [List.length_append, List.length_cons]; omega), htake, hdrop]
  refine ⟨hpos j, ?_⟩
  unfold parse_options
  rw [show (d :: pre) ++ s :: post = d :: (pre ++ s :: post) from rfl, getopt_stop hdo]
  exact hpos 1

theorem c9_witness :
    parse_positional 1 [['a'], ['-'], ['x'], ['-', '-'], ['y']] =
      .ok ⟨1, [['a']], [['x'], ['-', '-'], ['y']]⟩
    ∧ parse_options [['a'], ['-'], ['x'], ['-', '-'], ['y']] =
      .ok ⟨1, [['a']], [['x'], ['-', '-'], ['y']]⟩ :=
  c9 1 ['a'] [] [['x'], ['-', '-'], ['y']] ['-'] rfl rfl (by decide) (by decide) rfl

/-- C10 as amended for integer conversion: the -j value is
(int)strtol(optarg, NULL, 10): the leading decimal digit run after
optional whitespace and sign, with no check for trailing characters,
clamped by strtol to the long range and then truncated to a 32-bit int.
The option is accepted with exactly the converted value whenever that
value is at least 1 — in particular for every numeric prefix between 1
and INT_MAX, such as "3x" accepted as 3 — and makes the program exit
with code 1 otherwise; an argument with no numeric prefix converts to 0
and is rejected. -/
theorem c10 :
    (∀ (j : Int) (v : Arg) (rest : List Arg),
        getopt_loop j (['-', 'j'] :: v :: rest) =
          if jconv v < 1 then .error 1 else getopt_loop (jconv v) rest)
    ∧ (∀ (j : Int) (t : Arg) (rest : List Arg), t ≠ [] →
        getopt_loop j (('-' :: 'j' :: t) :: rest) =
          if jconv t < 1 then .error 1 else getopt_loop (jconv t) rest)
    ∧ (∀ v : Arg, takeDigits (sgnBody v) = [] → jconv v = 0)
    ∧ (∀ v : Arg, 1 ≤ strtolRaw v → strtolRaw v ≤ 2147483647 → jconv v = strtolRaw v)
    ∧ (∀ (v : Arg) (rest : List Arg) (evs : List Event), jconv v < 1 →
        within_main (['-', 'j'] :: v :: rest) evs = .parseError 1) := by
  refine ⟨fun j v rest => rfl, ?_, ?_, ?_, jbad_parseError⟩
  · intro j t rest ht
    rcases t with _ | ⟨c0, t0⟩
    · exact absurd rfl ht
    · rfl
  · intro v h
    have hr : strtolRaw v = 0 := by simp [strtolRaw, h, digitsToNat]
    unfold jconv strtol10 toCInt LONG_MAX LONG_MIN
    rw [hr]
    decide
  · intro v h1 h2
    unfold jconv strtol10 toCInt LONG_MAX LONG_MIN
    omega

/-- C10 counterexample to the original wording: the numeric prefix of
"4294967296" is 4294967296, at least 1, yet the program rejects
-j 4294967296 with a usage error, because (int)strtol wraps 2^32 to 0
and max_jobs = 0 fails the >= 1 check. -/
theorem c10_counterexample :
    strtolRaw ['4', '2', '9', '4', '9', '6', '7', '2', '9', '6'] = 4294967296
    ∧ (1 : Int) ≤ strtolRaw ['4', '2', '9', '4', '9', '6', '7', '2', '9', '6']
    ∧ jconv ['4', '2', '9', '4', '9', '6', '7', '2', '9', '6'] = 0
    ∧ within_main [['-', 'j'], ['4', '2', '9', '4', '9', '6', '7', '2', '9', '6'], ['d'], ['c']] []
        = .parseError 1 := by
  decide

theorem c10_witness :
    getopt_loop 1 [['-', 'j'], ['3', 'x'], ['d'], ['c']] = getopt_loop 3 [['d'], ['c']]
    ∧ getopt_loop 1 [['-', 'j', '2'], ['d']] = getopt_loop 2 [['d']]
    ∧ jconv ['x'] = 0
    ∧ jconv ['3', 'x'] = 3
    ∧ within_main [['-', 'j'], ['x'], ['d'], ['c']] [] = .parseError 1 := by
  refine ⟨?_, ?_, c10.2.2.1 ['x'] (by decide), ?_,
    c10.2.2.2.2 ['x'] [['d'], ['c']] [] (by decide)⟩
  · have h3 : jconv ['3', 'x'] = 3 := by decide
    rw [c10.1 1 ['3', 'x'] [['d'], ['c']], h3, if_neg (by norm_num)]
  · have h2 : jconv ['2'] = 2 := by decide
    rw [c10.2.1 1 ['2'] [['d']] (by decide), h2, if_neg (by norm_num)]
  · exact (c10.2.2.2.1 ['3', 'x'] (by decide) (by decide)).trans (by decide)

end Within
